import Mathlib

/-!
Shallow embedding of the budget-scheduling / evolutionary-bracket core
(`src/orion/algo/evolution_es.py`) and the dimension-transformation
pipeline (`src/orion/core/worker/transformer.py`) of the orion
repository, together with theorems settling the frozen claims about it.

Conventions used throughout:
* Python floats that hold exact numeric data are modelled as `ℚ`;
  `int(x)` on a float is truncation toward zero (`ratTrunc`), while
  `numpy.floor` is `Rat.floor`.
* Fallible Python code (exceptions) is modelled with `Option`/`Except`.
* `numpy.random` draws are modelled by an arbitrary stream of naturals
  (`ℕ → ℕ`) driving a pick-without-replacement loop, so theorems
  quantify over every possible outcome of the generator.
-/

/-! ## Budget computation (`compute_budgets`, evolution_es.py lines 36-73) -/

/-- Embeds `num_brackets = int(np.log(max_resources) / np.log(reduction_factor))`
for a positive integer `maxR` and `rf ≥ 2`: the truncated base-`rf`
logarithm of `maxR` is exactly `Nat.log rf maxR`. -/
def numBrackets (rf maxR : ℕ) : ℕ :=
  Nat.log rf maxR

/-- Embedding of `compute_budgets(min_resources, max_resources,
reduction_factor, nums_population, pairs)`.

* `reduction_factor == 1` branch: the Python loop over
  `range(min_resources, max_resources + 1)` creates the single schedule
  line at its first element (`i == min_resources`, count
  `nums_population`) and appends `(pairs * 2, i)` for every later `i`;
  the `match` below is that loop, unrolled by the structure of the
  range (whose first element, when nonempty, is `min_resources`).
* otherwise: `num_trials = int(np.ceil(int((nb+1)/(nb-b+1)) * rf**(nb-b)))`
  is integer arithmetic (`ceil` of an integer is itself, Python float
  division of positive ints truncated by `int(...)` is `Nat` division);
  `min_i = int((max_resources / rf**(nb-b)) * rf**i)` is the truncation
  of a non-negative rational, i.e. `Nat` division of `maxR * rf^i` by
  `rf^(nb-b)`; `n_i = int(num_trials / rf**i)` is again `Nat` division.
  `np.log(0)` would fail (modelled by the `maxR = 0` error) and
  `budgets[0]` on an empty bracket list would raise `IndexError`
  (modelled by the `[]` case of the outer match). -/
def computeBudgets (minR maxR rf pop pairs : ℕ) :
    Except String (List (List (ℕ × ℕ))) :=
  if rf = 1 then
    .ok (match List.range' minR (maxR + 1 - minR) with
         | [] => []
         | i :: rest => [(pop, i) :: rest.map (fun k => (pairs * 2, k))])
  else if maxR = 0 then
    .error "math domain error: np.log(0)"
  else
    let nb := numBrackets rf maxR
    let budgets := (List.range (nb + 1)).map (fun b =>
      let numTrials := ((nb + 1) / (nb - b + 1)) * rf ^ (nb - b)
      (List.range (nb - b + 1)).map (fun i =>
        (numTrials / rf ^ i, maxR * rf ^ i / rf ^ (nb - b))))
    match budgets with
    | [] => .error "IndexError: budgets[0]"
    | b0 :: _ =>
      .ok (match b0 with
           | [] => []
           | r0 :: rrest => [(pop, r0.2) :: rrest.map (fun r => (pairs * 2, r.2))])

/-- C4: the `reduction_factor = 1` schedule is one line of
`maxR - minR + 1` rungs with consecutive resource levels and the
population-size/pair-doubled counts. -/
theorem computeBudgets_rf1_spec (minR maxR pop pairs : ℕ) (h : minR ≤ maxR) :
    ∃ line, computeBudgets minR maxR 1 pop pairs = .ok [line] ∧
      line.length = maxR - minR + 1 ∧
      ∀ k, k < maxR - minR + 1 →
        line.get? k = some (if k = 0 then pop else pairs * 2, minR + k) := by
  have hn : maxR + 1 - minR = (maxR - minR) + 1 := by omega
  refine ⟨(pop, minR) ::
    (List.range' (minR + 1) (maxR - minR)).map (fun k => (pairs * 2, k)), ?_, ?_, ?_⟩
  · unfold computeBudgets
    rw [if_pos rfl, hn, List.range'_succ]
  · simp
  · intro k hk
    cases k with
    | zero => simp
    | succ k =>
      have hk' : k < maxR - minR := by omega
      have h1 : minR + 1 + 1 * k = minR + (k + 1) := by omega
      simp only [List.get?_eq_getElem?, List.getElem?_cons_succ, List.getElem?_map,
        List.getElem?_range' _ _ hk', Option.map_some', if_neg (Nat.succ_ne_zero k), h1]

/-- Witness for C4 at `minR = 2`, `maxR = 4`. -/
theorem computeBudgets_rf1_spec_witness :
    ∃ line, computeBudgets 2 4 1 5 3 = .ok [line] ∧
      line.length = 4 - 2 + 1 ∧
      ∀ k, k < 4 - 2 + 1 →
        line.get? k = some (if k = 0 then 5 else 3 * 2, 2 + k) :=
  computeBudgets_rf1_spec 2 4 5 3 (by decide)

/-- C2, counterexample: at `min_resources = 1`, `max_resources = 3`,
`reduction_factor = 4` the computed bracket count `num_brackets` is
zero, yet `compute_budgets` raises nothing and returns a schedule. -/
theorem computeBudgets_zero_brackets_returns_schedule :
    numBrackets 4 3 = 0 ∧ computeBudgets 1 3 4 4 2 = .ok [[(4, 3)]] := by
  have hnb : numBrackets 4 3 = 0 :=
    Nat.log_eq_zero_iff.mpr (Or.inl (by norm_num))
  refine ⟨hnb, ?_⟩
  unfold computeBudgets
  rw [if_neg (by norm_num), if_neg (by norm_num), hnb]
  rfl

/-- C2, amended: for every positive integer `max_resources` (any
reduction factor, any other arguments) `compute_budgets` returns a
schedule; it never reports an error, even when the computed bracket
count is zero. -/
theorem computeBudgets_never_fails (minR maxR rf pop pairs : ℕ)
    (h : 1 ≤ maxR) :
    ∃ s, computeBudgets minR maxR rf pop pairs = .ok s := by
  unfold computeBudgets
  by_cases h1 : rf = 1
  · simp [h1]
  · simp only [if_neg h1, if_neg (by omega : ¬ maxR = 0)]
    rw [List.range_succ_eq_map]
    exact ⟨_, rfl⟩

/-- Witness for C2's amended theorem. -/
theorem computeBudgets_never_fails_witness :
    ∃ s, computeBudgets 1 5 2 4 2 = .ok s :=
  computeBudgets_never_fails 1 5 2 4 2 (by decide)

/-! ## Evolutionary bracket (`BracketEVES.get_candidates`, evolution_es.py
lines 171-248) -/

/-- `int(x)` applied to a Python float: truncation toward zero. -/
def ratTrunc (q : ℚ) : ℤ :=
  if 0 ≤ q then ⌊q⌋ else ⌈q⌉

/-- The shared population arrays `eves.population[j][i]` (dimension index,
slot index). -/
def Pop : Type := ℕ → ℕ → ℚ

/-- The pluggable mutation collaborator (`mutate_func`): it receives the
winner and loser slot indices and rewrites the population in place.  Per
the collaborator contract it only touches population slots, so it is
modelled as a function on `Pop`. -/
def Mutation : Type := ℕ → ℕ → Pop → Pop

/-- `np.random.choice(pool, k, replace=False)`, driven by an arbitrary
stream of naturals: each step picks the element of the remaining pool at
position `rand 0 % pool.length` and removes it.  Every possible outcome
of numpy's generator is some instantiation of `rand`.  An empty pool
with picks remaining is numpy's `ValueError` (`none`). -/
def drawWR (rand : ℕ → ℕ) (pool : List ℕ) : ℕ → Option (List ℕ)
  | 0 => some []
  | k + 1 =>
    if h : pool = [] then none
    else
      let a := pool.get ⟨rand 0 % pool.length, Nat.mod_lt _ (List.length_pos.mpr h)⟩
      (drawWR (fun n => rand (n + 1)) (pool.erase a) k).map (fun res => a :: res)

/-- Lines 187-190: draw the red team from `range(nums_population)`, then
the blue team from the set difference of the index set and the red team. -/
def tournament (rand1 rand2 : ℕ → ℕ) (popSize pairs : ℕ) :
    Option (List ℕ × List ℕ) :=
  match drawWR rand1 (List.range popSize) pairs with
  | none => none
  | some red =>
    match drawWR rand2 ((List.range popSize).filter (fun x => decide (x ∉ red))) pairs with
    | none => none
    | some blue => some (red, blue)

/-- Lines 196-205: `winner = red_team if performance[red[i]] <
performance[blue[i]] else blue_team`, taken at position `i` of each
pair. -/
def duelWinners (perf : ℕ → ℚ) (red blue : List ℕ) : List ℕ :=
  (red.zip blue).map (fun rb => if perf rb.1 < perf rb.2 then rb.1 else rb.2)

/-- Lines 200-205: `loser = red_team if performance[red[i]] >=
performance[blue[i]] else blue_team`, i.e. the member of the pair that
did not win. -/
def duelLosers (perf : ℕ → ℚ) (red blue : List ℕ) : List ℕ :=
  (red.zip blue).map (fun rb => if perf rb.1 < perf rb.2 then rb.2 else rb.1)

/-- Line 207: `self._mutate(winner[i], loser[i])` applied for each pair in
order, threading the population state.  The winner/loser choice uses the
performance array, which the mutation collaborator does not modify. -/
def applyMutations (mutate : Mutation) (perf : ℕ → ℚ) (red blue : List ℕ)
    (popl : Pop) : Pop :=
  (red.zip blue).foldl
    (fun p rb =>
      mutate (if perf rb.1 < perf rb.2 then rb.1 else rb.2)
        (if perf rb.1 < perf rb.2 then rb.2 else rb.1) p)
    popl

/-- A draw without replacement from a duplicate-free pool of sufficient
size always succeeds and yields `k` distinct elements of the pool. -/
theorem drawWR_spec :
    ∀ (k : ℕ) (pool : List ℕ) (rand : ℕ → ℕ), k ≤ pool.length → pool.Nodup →
      ∃ res, drawWR rand pool k = some res ∧ res.length = k ∧ res.Nodup ∧
        ∀ x ∈ res, x ∈ pool := by
  intro k
  induction k with
  | zero =>
    intro pool rand _ _
    exact ⟨[], rfl, rfl, List.nodup_nil, by simp⟩
  | succ k ih =>
    intro pool rand hk hnd
    have hne : pool ≠ [] := by
      intro hcon
      rw [hcon] at hk
      simp at hk
    have hlt : rand 0 % pool.length < pool.length :=
      Nat.mod_lt _ (List.length_pos.mpr hne)
    set a := pool.get ⟨rand 0 % pool.length, hlt⟩ with ha
    have hmem : a ∈ pool := List.get_mem _ _ _
    have herase_len : (pool.erase a).length = pool.length - 1 :=
      List.length_erase_of_mem hmem
    have herase_nd : (pool.erase a).Nodup := hnd.erase a
    have hk' : k ≤ (pool.erase a).length := by omega
    obtain ⟨res, hres, hlen, hresnd, hsub⟩ := ih (pool.erase a) (fun n => rand (n + 1)) hk' herase_nd
    refine ⟨a :: res, ?_, by simp [hlen], ?_, ?_⟩
    · simp only [drawWR, dif_neg hne]
      rw [← ha, hres]
      rfl
    · have hnotin : a ∉ pool.erase a := by
        have hperm := List.perm_cons_erase hmem
        have := hperm.nodup hnd
        exact (List.nodup_cons.mp this).1
      exact List.nodup_cons.mpr ⟨fun hc => hnotin (hsub a hc), hresnd⟩
    · intro x hx
      rcases List.mem_cons.mp hx with h | h
      · rw [h]; exact hmem
      · exact List.erase_subset _ _ (hsub x h)

/-- The Python set difference `set(range(popSize)) - set(red)` has
exactly `popSize - red.length` elements when `red` is a duplicate-free
subset of the index range. -/
theorem filter_not_mem_range_length (popSize : ℕ) (red : List ℕ)
    (hsub : ∀ x ∈ red, x < popSize) (hnd : red.Nodup) :
    ((List.range popSize).filter (fun x => decide (x ∉ red))).length =
      popSize - red.length := by
  set l := (List.range popSize).filter (fun x => decide (x ∉ red)) with hl
  have hlnd : l.Nodup := (List.nodup_range popSize).filter _
  have hfin : l.toFinset = Finset.range popSize \ red.toFinset := by
    ext x
    simp [hl, List.mem_toFinset, List.mem_filter, Finset.mem_sdiff, List.mem_range]
  have hredsub : red.toFinset ⊆ Finset.range popSize := by
    intro x hx
    simp only [List.mem_toFinset] at hx
    exact Finset.mem_range.mpr (hsub x hx)
  calc l.length = l.toFinset.card := (List.toFinset_card_of_nodup hlnd).symm
    _ = (Finset.range popSize \ red.toFinset).card := by rw [hfin]
    _ = (Finset.range popSize).card - red.toFinset.card := Finset.card_sdiff hredsub
    _ = popSize - red.length := by
        rw [Finset.card_range, List.toFinset_card_of_nodup hnd]

/-- C3: in every tournament-selection step with `pair_count * 2 ≤
population_size`, red and blue are disjoint duplicate-free subsets of
`[0, population_size)` of size `pair_count`, exactly `pair_count`
winner/loser pairs are produced, the winner of a pair is the member
with strictly lower objective value, and on ties the blue member wins. -/
theorem tournament_selection_spec (popSize pairs : ℕ)
    (h : pairs * 2 ≤ popSize) (rand1 rand2 : ℕ → ℕ) (perf : ℕ → ℚ) :
    ∃ red blue, tournament rand1 rand2 popSize pairs = some (red, blue) ∧
      red.length = pairs ∧ blue.length = pairs ∧ red.Nodup ∧ blue.Nodup ∧
      (∀ x ∈ red, x < popSize) ∧ (∀ x ∈ blue, x < popSize) ∧
      (∀ x ∈ red, x ∉ blue) ∧
      (duelWinners perf red blue).length = pairs ∧
      (duelLosers perf red blue).length = pairs ∧
      (∀ i r b, red.get? i = some r → blue.get? i = some b →
        (perf r < perf b →
          (duelWinners perf red blue).get? i = some r ∧
          (duelLosers perf red blue).get? i = some b) ∧
        (perf b ≤ perf r →
          (duelWinners perf red blue).get? i = some b ∧
          (duelLosers perf red blue).get? i = some r)) := by
  have hr : pairs ≤ (List.range popSize).length := by simp; omega
  obtain ⟨red, hred, hrlen, hrnd, hrsub⟩ :=
    drawWR_spec pairs (List.range popSize) rand1 hr (List.nodup_range popSize)
  have hrsub' : ∀ x ∈ red, x < popSize := fun x hx => List.mem_range.mp (hrsub x hx)
  have hdiff_len :
      ((List.range popSize).filter (fun x => decide (x ∉ red))).length =
        popSize - red.length :=
    filter_not_mem_range_length popSize red hrsub' hrnd
  have hb : pairs ≤ ((List.range popSize).filter (fun x => decide (x ∉ red))).length := by
    rw [hdiff_len, hrlen]; omega
  obtain ⟨blue, hblue, hblen, hbnd, hbsub⟩ :=
    drawWR_spec pairs _ rand2 hb ((List.nodup_range popSize).filter _)
  have hbfacts : ∀ x ∈ blue, x < popSize ∧ x ∉ red := by
    intro x hx
    have := hbsub x hx
    rw [List.mem_filter] at this
    exact ⟨List.mem_range.mp this.1, by simpa using this.2⟩
  have hzip_len : (red.zip blue).length = pairs := by
    rw [List.length_zip, hrlen, hblen]; omega
  refine ⟨red, blue, ?_, hrlen, hblen, hrnd, hbnd, hrsub', fun x hx => (hbfacts x hx).1,
    fun x hx hxb => (hbfacts x hxb).2 hx, ?_, ?_, ?_⟩
  · simp only [tournament, hred, hblue]
  · simp [duelWinners, hzip_len]
  · simp [duelLosers, hzip_len]
  · intro i r b hri hbi
    have hzip : (red.zip blue).get? i = some (r, b) := by
      rw [List.get?_eq_getElem?] at hri hbi ⊢
      exact List.getElem?_zip_eq_some.mpr ⟨hri, hbi⟩
    constructor
    · intro hlt
      constructor
      · simp only [duelWinners, List.get?_eq_getElem?, List.getElem?_map]
        rw [List.get?_eq_getElem?] at hzip
        rw [hzip]
        simp [if_pos hlt]
      · simp only [duelLosers, List.get?_eq_getElem?, List.getElem?_map]
        rw [List.get?_eq_getElem?] at hzip
        rw [hzip]
        simp [if_pos hlt]
    · intro hle
      have hnlt : ¬ perf r < perf b := not_lt.mpr hle
      constructor
      · simp only [duelWinners, List.get?_eq_getElem?, List.getElem?_map]
        rw [List.get?_eq_getElem?] at hzip
        rw [hzip]
        simp [if_neg hnlt]
      · simp only [duelLosers, List.get?_eq_getElem?, List.getElem?_map]
        rw [List.get?_eq_getElem?] at hzip
        rw [hzip]
        simp [if_neg hnlt]

/-- Witness for C3 at `population_size = 4`, `pair_count = 2`. -/
theorem tournament_selection_spec_witness :
    ∃ red blue, tournament (fun _ => 0) (fun _ => 0) 4 2 = some (red, blue) ∧
      red.length = 2 ∧ blue.length = 2 ∧ red.Nodup ∧ blue.Nodup ∧
      (∀ x ∈ red, x < 4) ∧ (∀ x ∈ blue, x < 4) ∧
      (∀ x ∈ red, x ∉ blue) ∧
      (duelWinners (fun i => (i : ℚ)) red blue).length = 2 ∧
      (duelLosers (fun i => (i : ℚ)) red blue).length = 2 ∧
      (∀ i r b, red.get? i = some r → blue.get? i = some b →
        ((fun i => (i : ℚ)) r < (fun i => (i : ℚ)) b →
          (duelWinners (fun i => (i : ℚ)) red blue).get? i = some r ∧
          (duelLosers (fun i => (i : ℚ)) red blue).get? i = some b) ∧
        ((fun i => (i : ℚ)) b ≤ (fun i => (i : ℚ)) r →
          (duelWinners (fun i => (i : ℚ)) red blue).get? i = some b ∧
          (duelLosers (fun i => (i : ℚ)) red blue).get? i = some r)) :=
  tournament_selection_spec 4 2 (by decide) (fun _ => 0) (fun _ => 0) (fun i => (i : ℚ))

/-- Lines 182-185: overwrite population slot `i` (per non-fidelity
dimension `j`) and performance slot `i` from the `i`-th rung result,
for `i` below `population_range`. -/
def updatePop (ssrf : List ℕ) (rung : List (ℚ × (ℕ → ℚ))) (pr : ℕ)
    (popl : Pop) (perf : ℕ → ℚ) : Pop × (ℕ → ℚ) :=
  (List.range pr).foldl
    (fun st i =>
      let entry := rung.getD i (0, fun _ => 0)
      (fun j s => if j ∈ ssrf ∧ s = i then entry.2 j else st.1 j s,
       fun s => if s = i then entry.1 else st.2 s))
    (popl, perf)

/-- Lines 216-227: construct the candidate vector for rung entry `i`:
`point = [0] * len(space)`, the fidelity slot is copied from the rung
entry's parameter vector, and every non-fidelity slot reads the current
population value, cast with `int(...)` when the dimension type is
integer or categorical. -/
def buildPoint (types : List String) (fid : ℕ) (ssrf : List ℕ)
    (rungParams : ℕ → ℚ) (popl : Pop) (i : ℕ) : List ℚ :=
  (List.range types.length).map (fun j =>
    if j = fid then rungParams fid
    else if j ∈ ssrf then
      (if types.getD j "" = "integer" ∨ types.getD j "" = "categorical"
       then (ratTrunc (popl j i) : ℚ) else popl j i)
    else 0)

/-- Lines 218-238, the `while True:` deduplication loop for one rung
entry `i`: rebuild the point from the (possibly just-mutated)
population; if it equals a point already in `points`, call
`self._mutate(points.index(tuple(point)), i)` and loop again, otherwise
exit with the point.  The loop has no other exit: the `nums_all_equal >
10` branch only logs a warning and does not break, so the source can
loop forever; `fuel` makes the embedding total, with `none` meaning
"still looping after `fuel` iterations". -/
def dedupLoop (mutate : Mutation) (types : List String) (fid : ℕ)
    (ssrf : List ℕ) (rungParams : ℕ → ℚ) (i : ℕ)
    (points : List (List ℚ)) : Pop → ℕ → Option (List ℚ × Pop)
  | _, 0 => none
  | popl, fuel + 1 =>
    let pt := buildPoint types fid ssrf rungParams popl i
    if pt ∈ points then
      dedupLoop mutate types fid ssrf rungParams i points
        (mutate (points.indexOf pt) i popl) fuel
    else some (pt, popl)

/-- Lines 215-239, the outer `for i in range(population_range):` loop,
threading the accumulated `points` list and the population through each
entry's deduplication loop. -/
def buildPointsGo (mutate : Mutation) (types : List String) (fid : ℕ)
    (ssrf : List ℕ) (rung : List (ℚ × (ℕ → ℚ))) (fuel : ℕ) :
    List ℕ → List (List ℚ) → Pop → Option (List (List ℚ) × Pop)
  | [], points, popl => some (points, popl)
  | i :: rest, points, popl =>
    match dedupLoop mutate types fid ssrf (rung.getD i (0, fun _ => 0)).2 i
        points popl fuel with
    | none => none
    | some (pt, popl1) =>
      buildPointsGo mutate types fid ssrf rung fuel rest (points ++ [pt]) popl1

/-- Embedding of `BracketEVES.get_candidates` (lines 171-243).
`nextFilled` is the external predicate `has_rung_filled(rung_id + 1)`;
`rung` is the insertion-ordered list of `(objective, parameter vector)`
results of `rung_id`; `types` are the space's dimension types and `fid`
the fidelity index.  `none` models a call that raises or that never
returns within `fuel` iterations of the deduplication loop (numpy's
`ValueError` when a team draw is impossible, the `ZeroDivisionError` of
`hurdles /= len(red_team)` when `pairs = 0`, or an unbounded duplicate
loop). -/
def getCandidates (nextFilled : Bool) (popSize pairs : ℕ)
    (types : List String) (fid : ℕ) (rung : List (ℚ × (ℕ → ℚ)))
    (popl : Pop) (perf : ℕ → ℚ) (rand1 rand2 : ℕ → ℕ) (mutate : Mutation)
    (fuel : ℕ) : Option (List (List ℚ)) :=
  if nextFilled then some [] else
  let ssrf := (List.range types.length).filter (fun j => decide (j ≠ fid))
  let pr := if rung.length > popSize then popSize else rung.length
  let st := updatePop ssrf rung pr popl perf
  match tournament rand1 rand2 popSize pairs with
  | none => none
  | some (red, blue) =>
    if red.length = 0 then none
    else
      let popl2 := applyMutations mutate st.2 red blue st.1
      (buildPointsGo mutate types fid ssrf rung fuel (List.range pr) [] popl2).map
        (fun r => r.1)

/-- The fidelity slot of a constructed candidate vector is the rung
entry's fidelity parameter. -/
theorem buildPoint_fidelity (types : List String) (fid : ℕ) (ssrf : List ℕ)
    (rungParams : ℕ → ℚ) (popl : Pop) (i : ℕ) (hfid : fid < types.length) :
    (buildPoint types fid ssrf rungParams popl i).get? fid = some (rungParams fid) := by
  simp only [buildPoint, List.get?_eq_getElem?, List.getElem?_map,
    List.getElem?_range hfid, Option.map_some']
  simp

/-- Whatever the deduplication loop returns was built by `buildPoint`
from some population state. -/
theorem dedupLoop_builds (mutate : Mutation) (types : List String) (fid : ℕ)
    (ssrf : List ℕ) (rungParams : ℕ → ℚ) (i : ℕ) (points : List (List ℚ)) :
    ∀ (fuel : ℕ) (popl : Pop) (pt : List ℚ) (popl1 : Pop),
      dedupLoop mutate types fid ssrf rungParams i points popl fuel = some (pt, popl1) →
      ∃ pl, pt = buildPoint types fid ssrf rungParams pl i := by
  intro fuel
  induction fuel with
  | zero => intro popl pt popl1 hres; exact absurd hres (by simp [dedupLoop])
  | succ fuel ih =>
    intro popl pt popl1 hres
    rw [dedupLoop] at hres
    by_cases hmem : buildPoint types fid ssrf rungParams popl i ∈ points
    · rw [if_pos hmem] at hres
      exact ih _ pt popl1 hres
    · rw [if_neg hmem] at hres
      obtain ⟨hpt, _⟩ := Prod.mk.injEq .. ▸ (Option.some.injEq .. ▸ hres)
      exact ⟨popl, hpt.symm⟩

/-- The outer candidate loop appends, for each processed index, a point
built by `buildPoint` for that index from some population state. -/
theorem buildPointsGo_points (mutate : Mutation) (types : List String)
    (fid : ℕ) (ssrf : List ℕ) (rung : List (ℚ × (ℕ → ℚ))) (fuel : ℕ) :
    ∀ (idxs : List ℕ) (points : List (List ℚ)) (popl : Pop)
      (pts : List (List ℚ)) (popl1 : Pop),
      buildPointsGo mutate types fid ssrf rung fuel idxs points popl = some (pts, popl1) →
      ∃ newPts, pts = points ++ newPts ∧ newPts.length = idxs.length ∧
        ∀ j pt, newPts.get? j = some pt →
          ∃ i, idxs.get? j = some i ∧
            ∃ pl, pt = buildPoint types fid ssrf (rung.getD i (0, fun _ => 0)).2 pl i := by
  intro idxs
  induction idxs with
  | nil =>
    intro points popl pts popl1 hres
    rw [buildPointsGo] at hres
    obtain ⟨hpts, _⟩ := Prod.mk.injEq .. ▸ (Option.some.injEq .. ▸ hres)
    exact ⟨[], by simp [← hpts], by simp, by simp⟩
  | cons i rest ih =>
    intro points popl pts popl1 hres
    rw [buildPointsGo] at hres
    cases hdl : dedupLoop mutate types fid ssrf (rung.getD i (0, fun _ => 0)).2 i
        points popl fuel with
    | none => rw [hdl] at hres; exact absurd hres (by simp)
    | some r =>
      obtain ⟨pt, popl2⟩ := r
      rw [hdl] at hres
      simp only at hres
      obtain ⟨newPts, hpts, hlen, hspec⟩ := ih (points ++ [pt]) popl2 pts popl1 hres
      refine ⟨pt :: newPts, by simp [hpts], by simp [hlen], ?_⟩
      intro j q hq
      cases j with
      | zero =>
        simp only [List.get?_cons_zero, Option.some.injEq] at hq
        subst hq
        exact ⟨i, rfl, dedupLoop_builds mutate types fid ssrf _ i points fuel popl pt popl2 hdl⟩
      | succ j =>
        simp only [List.get?_cons_succ] at hq ⊢
        exact hspec j q hq

/-- C5: every candidate vector emitted by `get_candidates` keeps, in its
fidelity slot, exactly the fidelity value of the corresponding rung
entry's original parameter vector. -/
theorem getCandidates_fidelity_preserved
    (nextFilled : Bool) (popSize pairs : ℕ) (types : List String) (fid : ℕ)
    (rung : List (ℚ × (ℕ → ℚ))) (popl : Pop) (perf : ℕ → ℚ)
    (rand1 rand2 : ℕ → ℕ) (mutate : Mutation) (fuel : ℕ)
    (points : List (List ℚ))
    (hres : getCandidates nextFilled popSize pairs types fid rung popl perf
      rand1 rand2 mutate fuel = some points)
    (hfid : fid < types.length) :
    ∀ i p, points.get? i = some p →
      ∃ e, rung.get? i = some e ∧ p.get? fid = some (e.2 fid) := by
  intro i p hp
  cases nextFilled with
  | true =>
    have h0 : getCandidates true popSize pairs types fid rung popl perf rand1 rand2
        mutate fuel = some [] := rfl
    rw [h0, Option.some.injEq] at hres
    rw [← hres] at hp
    simp at hp
  | false =>
    simp only [getCandidates, Bool.false_eq_true, if_false] at hres
    cases htour : tournament rand1 rand2 popSize pairs with
    | none => rw [htour] at hres; exact absurd hres (by simp)
    | some rb =>
      obtain ⟨red, blue⟩ := rb
      rw [htour] at hres
      simp only at hres
      by_cases hlen : red.length = 0
      · rw [if_pos hlen] at hres; exact absurd hres (by simp)
      · rw [if_neg hlen] at hres
        rw [Option.map_eq_some'] at hres
        obtain ⟨⟨pts, popl1⟩, hgo, hpts⟩ := hres
        simp only at hpts
        obtain ⟨newPts, hall, hplen, hspec⟩ :=
          buildPointsGo_points mutate types fid _ rung fuel _ [] _ pts popl1 hgo
        rw [List.nil_append] at hall
        rw [← hpts, hall] at hp
        obtain ⟨i', hi', pl, hpt⟩ := hspec i p hp
        have hipr : i < (if rung.length > popSize then popSize else rung.length) := by
          have := List.get?_eq_some.mp hi'
          obtain ⟨hlt, _⟩ := this
          simpa using hlt
        have hii : i' = i := by
          have := hi'
          rw [List.get?_eq_getElem?] at this
          rw [List.getElem?_range (by simpa using hipr)] at this
          exact (Option.some.injEq .. ▸ this).symm
        have hirung : i < rung.length := by
          by_cases hc : rung.length > popSize
          · rw [if_pos hc] at hipr; omega
          · rw [if_neg hc] at hipr; omega
        have hrung : rung.get? i = some (rung.getD i (0, fun _ => 0)) := by
          rw [List.get?_eq_getElem?, List.getElem?_eq_getElem hirung]
          rw [List.getD_eq_getElem?_getD, List.getElem?_eq_getElem hirung]
          rfl
        refine ⟨rung.getD i (0, fun _ => 0), hrung, ?_⟩
        rw [hpt, hii]
        exact buildPoint_fidelity types fid _ _ pl i hfid

/-- Witness for C5: a concrete two-entry rung; the second emitted point
keeps the second rung entry's fidelity value 9. -/
theorem getCandidates_fidelity_preserved_witness :
    ∃ e, ([((1 : ℚ), fun j => if j = 0 then (3 : ℚ) else 9),
          ((2 : ℚ), fun j => if j = 0 then (4 : ℚ) else 9)] : List (ℚ × (ℕ → ℚ))).get? 1 =
            some e ∧
      ([(4 : ℚ), 9] : List ℚ).get? 1 = some (e.2 1) :=
  getCandidates_fidelity_preserved false 2 1 ["real", "fidelity"] 1
    [((1 : ℚ), fun j => if j = 0 then (3 : ℚ) else 9),
     ((2 : ℚ), fun j => if j = 0 then (4 : ℚ) else 9)]
    (fun _ _ => 0) (fun _ => 0) (fun _ => 0) (fun _ => 0) (fun _ _ p => p) 5
    [[3, 9], [4, 9]] (by decide) (by decide) 1 [4, 9] rfl

/-- A rung whose two results carry identical parameter vectors: the
candidate built for entry 1 duplicates the one built for entry 0. -/
def dupRung : List (ℚ × (ℕ → ℚ)) :=
  [(0, fun _ => 0), (0, fun _ => 0)]

/-- A configurable mutation function that leaves every population slot
unchanged (e.g. one whose randomly chosen genes land on values that cast
back to the same integers). -/
def idMutation : Mutation := fun _ _ p => p

/-- The population state reached inside `get_candidates` on the
`dupRung` scenario, after the update-from-rung step (the identity
mutation leaves it unchanged). -/
def dupPop2 : Pop :=
  (updatePop [0] dupRung 2 (fun _ _ => 0) (fun _ => 0)).1

/-- If the point currently built for entry `i` is already in `points`
and the mutation function does not change the population, the
deduplication loop never exits: the `nums_all_equal > 10` branch of the
source only logs, it does not break. -/
theorem dedupLoop_stuck_of_id (mutate : Mutation)
    (hid : ∀ w l p, mutate w l p = p) (types : List String) (fid : ℕ)
    (ssrf : List ℕ) (rungParams : ℕ → ℚ) (i : ℕ)
    (points : List (List ℚ)) (popl : Pop)
    (hmem : buildPoint types fid ssrf rungParams popl i ∈ points) :
    ∀ fuel, dedupLoop mutate types fid ssrf rungParams i points popl fuel = none := by
  intro fuel
  induction fuel with
  | zero => rfl
  | succ f ih =>
    simp only [dedupLoop, if_pos hmem, hid]
    exact ih

/-- On the duplicate-rung scenario the outer candidate loop gets stuck
on entry 1, whatever iteration budget it is given. -/
theorem buildPointsGo_dup_stuck :
    ∀ g, buildPointsGo idMutation ["real", "fidelity"] 1 [0] dupRung g
      [0, 1] [] dupPop2 = none := by
  intro g
  cases g with
  | zero => rfl
  | succ f =>
    have h1 : buildPointsGo idMutation ["real", "fidelity"] 1 [0] dupRung (f + 1)
        [0, 1] [] dupPop2 =
        buildPointsGo idMutation ["real", "fidelity"] 1 [0] dupRung (f + 1) [1]
          [buildPoint ["real", "fidelity"] 1 [0] (dupRung.getD 0 (0, fun _ => 0)).2
            dupPop2 0] dupPop2 := rfl
    have hstuck := dedupLoop_stuck_of_id idMutation (fun _ _ _ => rfl)
      ["real", "fidelity"] 1 [0] (dupRung.getD 1 (0, fun _ => 0)).2 1
      [buildPoint ["real", "fidelity"] 1 [0] (dupRung.getD 0 (0, fun _ => 0)).2 dupPop2 0]
      dupPop2 (by decide) (f + 1)
    rw [h1]
    simp only [buildPointsGo, hstuck]

/-- C1 (refuting the claim as stated): on a rung whose results all carry
the same parameter vector and a mutation function that leaves the cast
population values unchanged, the candidate-construction loop of
`get_candidates` never terminates — for every iteration budget it is
still looping.  The source's retry cap does not exist: after 10
duplicates it logs a warning on every further iteration but never
accepts the duplicate. -/
theorem getCandidates_duplicate_loop_unbounded :
    ∀ fuel, getCandidates false 2 1 ["real", "fidelity"] 1 dupRung
      (fun _ _ => 0) (fun _ => 0) (fun _ => 0) (fun _ => 0) idMutation fuel = none := by
  intro fuel
  have heq : getCandidates false 2 1 ["real", "fidelity"] 1 dupRung
      (fun _ _ => 0) (fun _ => 0) (fun _ => 0) (fun _ => 0) idMutation fuel =
      Option.map (fun r => r.1)
        (buildPointsGo idMutation ["real", "fidelity"] 1 [0] dupRung fuel
          [0, 1] [] dupPop2) := rfl
  rw [heq, buildPointsGo_dup_stuck fuel]
  rfl

/-! ## Transformer hierarchy (`src/orion/core/worker/transformer.py`)

Points crossing a single dimension are scalars; the value universe
`TVal` covers the scalar types the transformers exchange (floats,
ints, category labels) plus the one-hot float vectors and the integer
vectors produced by elementwise numpy casts.  Exceptions are split into
`AssertionError` (the only kind `TransformedDimension.__contains__`
catches) and everything else (`KeyError`, `IndexError`, `TypeError`,
...). -/

inductive Exc where
  | assertion
  | other
deriving DecidableEq

inductive TVal where
  | r (q : ℚ)
  | i (z : ℤ)
  | c (s : String)
  | v (l : List ℚ)
  | iv (l : List ℤ)
deriving DecidableEq

/-- The dictionary `{cat: i for i, cat in enumerate(categories)}` built
by `Enumerate.__init__`, then looked up: later duplicate keys overwrite
earlier ones; a missing key is `KeyError` (`none`). -/
def enumIndex (cats : List String) (c : String) : Option ℕ :=
  (List.range cats.length).foldl
    (fun acc i => if cats.get? i = some c then some i else acc) none

/-- `categories[z]` in `Enumerate.reverse`, with Python list indexing:
non-negative indices from the front, negative indices from the back,
anything else `IndexError` (`none`). -/
def pyIndex (cats : List String) (z : ℤ) : Option String :=
  if 0 ≤ z then cats.get? z.toNat
  else
    if 0 ≤ (cats.length : ℤ) + z then cats.get? ((cats.length : ℤ) + z).toNat else none

/-- `hot = numpy.zeros(num_cats); hot[point] = 1` for a scalar point
(`OneHotEncode.transform`, lines 250-254). -/
def oneHotVec (n i : ℕ) : List ℚ :=
  (List.replicate n (0 : ℚ)).set i 1

/-- `numpy.argmax` helper: walk the list keeping the first index of the
maximum seen so far. -/
def argmaxGo : List ℚ → ℕ → ℕ → ℚ → ℕ
  | [], _, bi, _ => bi
  | x :: xs, ci, bi, bv =>
    if bv < x then argmaxGo xs (ci + 1) ci x else argmaxGo xs (ci + 1) bi bv

/-- `numpy.argmax`: first index attaining the maximum; empty input is a
`ValueError` (`none`). -/
def argmaxIdx : List ℚ → Option ℕ
  | [] => none
  | x :: xs => some (argmaxGo xs 1 0 x)

/-- The concrete `Transformer` subclasses of transformer.py; `Compose`
is represented as the list of its chain (declaration order = forward
application order), see `chainTransform`. -/
inductive Xf where
  | identity (dt : Option String)
  | quantize
  | enum (cats : List String)
  | oneHot (n : ℕ)
  | rev (t : Xf)

/-- `target_type` (`tgt = true`) and `domain_type` (`tgt = false`) of
each transformer; `Reverse` swaps the two. -/
def Xf.typeOf : Bool → Xf → Option String
  | _, .identity dt => dt
  | true, .quantize => some "integer"
  | false, .quantize => some "real"
  | true, .enum _ => some "integer"
  | false, .enum _ => some "categorical"
  | true, .oneHot _ => some "real"
  | false, .oneHot _ => some "integer"
  | tgt, .rev t => t.typeOf !tgt

def Xf.targetType (x : Xf) : Option String := x.typeOf true

def Xf.domainType (x : Xf) : Option String := x.typeOf false

/-- `transform` (`fwd = true`) and `reverse` (`fwd = false`) of each
transformer, on scalar points (plus the elementwise vector cases that
stay within `TVal`; remaining multi-dimensional numpy behaviour is
outside the modelled scope and mapped to a non-assertion error, which
no claim exercises).

* `Quantize.transform` is `numpy.floor(...).astype(int)`, its reverse
  `astype(float)`.
* `Enumerate.transform` is the category dictionary (a missing key is
  `KeyError`); its reverse is `categories[x]` (out of range is
  `IndexError`); non-category inputs fail with `KeyError`/`TypeError`.
  None of these are `AssertionError`s.
* `OneHotEncode.transform` asserts `0 <= point < num_cats` and
  integrality (`AssertionError` on violation), then returns the scalar
  as a float for `num_cats <= 2` and the one-hot vector otherwise
  (indexing with a float scalar is a non-assertion numpy error).
* `OneHotEncode.reverse` thresholds at 0.5 for `num_cats = 2`, returns
  `zeros_like` for `num_cats = 1`, and otherwise asserts
  `shape[-1] == num_cats` (an `AssertionError`; a scalar there has no
  last axis, an `IndexError`) before taking `argmax`.
* `Reverse(t)` swaps the roles. -/
def Xf.apply : Bool → Xf → TVal → Except Exc TVal
  | _, .identity _, w => .ok w
  | true, .quantize, w =>
    match w with
    | .r q => .ok (.i ⌊q⌋)
    | .i z => .ok (.i z)
    | .v l => .ok (.iv (l.map Rat.floor))
    | .iv l => .ok (.iv l)
    | .c _ => .error .other
  | false, .quantize, w =>
    match w with
    | .i z => .ok (.r z)
    | .r q => .ok (.r q)
    | .iv l => .ok (.v (l.map fun z => (z : ℚ)))
    | .v l => .ok (.v l)
    | .c _ => .error .other
  | true, .enum cats, w =>
    match w with
    | .c s =>
      match enumIndex cats s with
      | some idx => .ok (.i idx)
      | none => .error .other
    | _ => .error .other
  | false, .enum cats, w =>
    match w with
    | .i z =>
      match pyIndex cats z with
      | some s => .ok (.c s)
      | none => .error .other
    | _ => .error .other
  | true, .oneHot n, w =>
    match w with
    | .i z =>
      if 0 ≤ z ∧ z < n then
        (if n ≤ 2 then .ok (.r z) else .ok (.v (oneHotVec n z.toNat)))
      else .error .assertion
    | .r q =>
      if 0 ≤ q ∧ q < n ∧ q.den = 1 then
        (if n ≤ 2 then .ok (.r q) else .error .other)
      else .error .assertion
    | _ => .error .other
  | false, .oneHot n, w =>
    if n = 2 then
      match w with
      | .r q => .ok (.i (if 1 / 2 < q then 1 else 0))
      | .i z => .ok (.i (if 1 / 2 < (z : ℚ) then 1 else 0))
      | .v l => .ok (.iv (l.map fun q => if 1 / 2 < q then 1 else 0))
      | .iv l => .ok (.iv (l.map fun z => if 1 / 2 < (z : ℚ) then 1 else 0))
      | .c _ => .error .other
    else if n = 1 then
      match w with
      | .r _ => .ok (.i 0)
      | .i _ => .ok (.i 0)
      | .v l => .ok (.iv (l.map fun _ => 0))
      | .iv l => .ok (.iv (l.map fun _ => 0))
      | .c _ => .error .other
    else
      match w with
      | .v l =>
        if l.length = n then
          match argmaxIdx l with
          | some k => .ok (.i k)
          | none => .error .other
        else .error .assertion
      | .iv l =>
        if l.length = n then
          match argmaxIdx (l.map fun z => (z : ℚ)) with
          | some k => .ok (.i k)
          | none => .error .other
        else .error .assertion
      | _ => .error .other
  | fwd, .rev t, w => Xf.apply (!fwd) t w

/-- `Compose.transform`: the recursive `Compose` applies the popped
last transformer after the composed prefix, i.e. the declaration-order
list is applied head first. -/
def chainTransform (ts : List Xf) (w : TVal) : Except Exc TVal :=
  ts.foldlM (fun u t => Xf.apply true t u) w

/-- `Compose.reverse`: the outermost (last declared) transformer is
reversed first. -/
def chainReverse (ts : List Xf) (w : TVal) : Except Exc TVal :=
  ts.reverse.foldlM (fun u t => Xf.apply false t u) w

/-- The original `Dimension` (external collaborator `orion.algo.space`,
consumed read-only): its `interval()` raises
`RuntimeError("Categories ...")` exactly for categorical dimensions,
modelled as `intervalOpt = none`; `mem` is its containment predicate. -/
structure OrigDim where
  name : String
  type : String
  categories : List String
  intervalOpt : Option (TVal × TVal)
  mem : TVal → Bool

/-- `TransformedDimension`: one original dimension paired with one
(possibly composed) transformer chain. -/
structure TDim where
  transformer : List Xf
  original : OrigDim

/-- Property `name` (lines 311-314): the original dimension's name,
unchanged. -/
def TDim.name (d : TDim) : String := d.original.name

def TDim.transform (d : TDim) (w : TVal) : Except Exc TVal :=
  chainTransform d.transformer w

def TDim.reverse (d : TDim) (w : TVal) : Except Exc TVal :=
  chainReverse d.transformer w

/-- `TransformedDimension.__contains__` (lines 297-305): reverse the
candidate point, turning an `AssertionError` (and only that) into
`False`; on success delegate to the original dimension's containment. -/
def TDim.containsPoint (d : TDim) (p : TVal) : Except Exc Bool :=
  match d.reverse p with
  | .error .assertion => .ok false
  | .error .other => .error .other
  | .ok o => .ok (d.original.mem o)

/-- `TransformedDimension.interval` (lines 287-295): a categorical
original dimension's `RuntimeError("Categories ...")` is caught and the
placeholder `(-0.1, 1.1)` returned; otherwise both endpoints are
forward-transformed (low first, as in the source tuple). -/
def TDim.intervalT (d : TDim) : Except Exc (TVal × TVal) :=
  match d.original.intervalOpt with
  | none => .ok (.r (-(1 : ℚ) / 10), .r (11 / 10))
  | some (lo, hi) =>
    match d.transform lo with
    | .error e => .error e
    | .ok l =>
      match d.transform hi with
      | .error e => .error e
      | .ok h => .ok (l, h)

/-- One iteration of the requirement loop of `build_required_space`
(lines 51-74): dispatch on `(type_, requirement)`, extending the
transformer list or raising `TypeError`; then the `try`/`except
IndexError` block updates the running type tracker to the last
transformer's `target_type` unless that is `'invariant'` (an empty list
keeps the tracker; a `None` target does overwrite it, as in Python). -/
def requirementStep (cats : List String) (st : Option String × List Xf)
    (req : Option String) : Except String (Option String × List Xf) :=
  match
    (if st.1 = some "real" ∧ (req = some "real" ∨ req = none) then .ok st.2
     else if st.1 = some "real" ∧ req = some "integer" then
       .ok (st.2 ++ [.quantize])
     else if st.1 = some "integer" ∧ (req = some "integer" ∨ req = none) then
       .ok st.2
     else if st.1 = some "integer" ∧ req = some "real" then
       .ok (st.2 ++ [.rev .quantize])
     else if st.1 = some "categorical" ∧ req = some "real" then
       .ok (st.2 ++ [.enum cats, .oneHot cats.length])
     else if st.1 = some "categorical" ∧ req = some "integer" then
       .ok (st.2 ++ [.enum cats])
     else if st.1 = some "categorical" ∧ req = none then .ok st.2
     else .error "TypeError: Unsupported dimension type or requirement" :
      Except String (List Xf)) with
  | .error e => .error e
  | .ok ts =>
    .ok (match ts.getLast? with
         | none => st.1
         | some t => if t.targetType ≠ some "invariant" then t.targetType else st.1,
        ts)

/-- The transformer chain `build_required_space` infers for one
dimension: fold the requirement list starting from the dimension's
native type. -/
def requiredTransformers (reqs : List (Option String)) (dimType : String)
    (cats : List String) : Except String (List Xf) :=
  match reqs.foldlM (requirementStep cats) (some dimType, []) with
  | .error e => .error e
  | .ok st => .ok st.2

/-- `build_required_space` (lines 45-77): wrap every dimension of the
original space, in order, in a `TransformedDimension` carrying the
inferred `Compose` chain; the first unsupported combination aborts with
`TypeError`. -/
def buildRequiredSpace (reqs : List (Option String)) :
    List OrigDim → Except String (List TDim)
  | [] => .ok []
  | d :: rest =>
    match requiredTransformers reqs d.type d.categories with
    | .error e => .error e
    | .ok ts =>
      match buildRequiredSpace reqs rest with
      | .error e => .error e
      | .ok others => .ok (⟨ts, d⟩ :: others)

instance {ε α : Type} [DecidableEq ε] [DecidableEq α] :
    DecidableEq (Except ε α) := fun x y =>
  match x, y with
  | .ok a, .ok b =>
    if h : a = b then .isTrue (by rw [h]) else .isFalse (fun hc => h (Except.ok.inj hc))
  | .error a, .error b =>
    if h : a = b then .isTrue (by rw [h]) else .isFalse (fun hc => h (Except.error.inj hc))
  | .ok _, .error _ => .isFalse (fun hc => Except.noConfusion hc)
  | .error _, .ok _ => .isFalse (fun hc => Except.noConfusion hc)

/-- C7: `Quantize` is a documented-lossy approximate inverse:
`reverse(transform(x)) = x` for every already-integer real `x`
(denominator 1), while for the non-integer input `1/2` the floor loses
the fractional part and the round trip does not restore it. -/
theorem quantize_roundtrip_spec :
    (∀ x : ℚ, x.den = 1 →
      (Xf.apply true .quantize (.r x)).bind (Xf.apply false .quantize) =
        .ok (.r x)) ∧
    (Xf.apply true .quantize (.r (1 / 2))).bind (Xf.apply false .quantize) ≠
      .ok (.r (1 / 2)) := by
  constructor
  · intro x hx
    have hx' : x = (x.num : ℚ) := by
      conv_lhs => rw [← Rat.num_div_den x]
      rw [hx]
      norm_num
    have hfloor : (⌊x⌋ : ℚ) = x := by
      conv_lhs => rw [hx', Int.floor_intCast]
      exact hx'.symm
    simp [Xf.apply, Except.bind, hfloor]
  · have h0 : ⌊(1 / 2 : ℚ)⌋ = 0 := by norm_num
    simp only [Xf.apply, Except.bind, h0]
    intro hc
    rw [Except.ok.injEq, TVal.r.injEq] at hc
    norm_num at hc

/-- Witness for C7 at the integer input 3. -/
theorem quantize_roundtrip_spec_witness :
    (3 : ℚ).den = 1 ∧
    (Xf.apply true .quantize (.r 3)).bind (Xf.apply false .quantize) =
      .ok (.r 3) :=
  ⟨by decide, quantize_roundtrip_spec.1 3 (by decide)⟩

/-- C8, amended: `__contains__` turns an assertion-signalled reverse
failure (`AssertionError`, the transformers' formalized contract
checks) into `false`, and on a successful reverse delegates to the
original dimension's containment of the reversed point; non-assertion
reverse errors propagate instead (see the counterexample). -/
theorem containsPoint_spec (d : TDim) (p : TVal) :
    (d.reverse p = .error .assertion → d.containsPoint p = .ok false) ∧
    (∀ o, d.reverse p = .ok o → d.containsPoint p = .ok (d.original.mem o)) := by
  constructor
  · intro h
    simp [TDim.containsPoint, h]
  · intro o h
    simp [TDim.containsPoint, h]

/-- Witness for C8's amended theorem: a one-hot chain of width 3 fed a
length-2 vector fails its shape assertion, and containment is `false`. -/
theorem containsPoint_spec_witness :
    (TDim.mk [.oneHot 3]
      ⟨"x", "categorical", ["a", "b", "c"], none, fun _ => true⟩).reverse
        (.v [1, 0]) = .error .assertion ∧
    (TDim.mk [.oneHot 3]
      ⟨"x", "categorical", ["a", "b", "c"], none, fun _ => true⟩).containsPoint
        (.v [1, 0]) = .ok false :=
  ⟨rfl, (containsPoint_spec _ _).1 rfl⟩

/-- C8, counterexample to the claim as stated: the candidate point 5 is
out of the reverse domain of `Enumerate(["a"])` (a contract violation),
but its reverse raises `IndexError`, not `AssertionError`, and
`__contains__` propagates the error instead of returning `false`. -/
theorem containsPoint_propagates_index_error :
    (TDim.mk [.enum ["a"]]
      ⟨"x", "categorical", ["a"], none, fun _ => true⟩).reverse (.i 5) =
        .error .other ∧
    (TDim.mk [.enum ["a"]]
      ⟨"x", "categorical", ["a"], none, fun _ => true⟩).containsPoint (.i 5) ≠
        .ok false := by
  exact ⟨rfl, by decide⟩

/-- C9: `interval()` of a `TransformedDimension` over a categorical
original dimension (whose own interval is undefined) is exactly the
placeholder `(-0.1, 1.1)`; over any other dimension it is the pair of
forward-transformed original endpoints. -/
theorem transformedDimension_interval_spec :
    (∀ d : TDim, d.original.intervalOpt = none →
      d.intervalT = .ok (.r (-(1 : ℚ) / 10), .r (11 / 10))) ∧
    (∀ (d : TDim) (lo hi : TVal) (l h : TVal),
      d.original.intervalOpt = some (lo, hi) →
      d.transform lo = .ok l → d.transform hi = .ok h →
      d.intervalT = .ok (l, h)) := by
  constructor
  · intro d hcat
    simp [TDim.intervalT, hcat]
  · intro d lo hi l h hint hl hh
    simp [TDim.intervalT, hint, hl, hh]

/-- Witness for C9: a categorical dimension under `Enumerate` then
`OneHotEncode` gets the placeholder; an integer dimension under
`Reverse(Quantize())` gets its endpoints cast to reals. -/
theorem transformedDimension_interval_spec_witness :
    (TDim.mk [.enum ["a", "b", "c"], .oneHot 3]
      ⟨"y", "categorical", ["a", "b", "c"], none, fun _ => true⟩).intervalT =
        .ok (.r (-(1 : ℚ) / 10), .r (11 / 10)) ∧
    (TDim.mk [.rev .quantize]
      ⟨"z", "integer", [], some (.i 2, .i 5), fun _ => true⟩).intervalT =
        .ok (.r 2, .r 5) :=
  ⟨transformedDimension_interval_spec.1 _ rfl,
   transformedDimension_interval_spec.2 _ (.i 2) (.i 5) (.r 2) (.r 5) rfl rfl rfl⟩

/-- C10: a `TransformedDimension`'s name is the wrapped original
dimension's name whatever transformer chain it carries, so
`build_required_space` preserves the ordered list (hence the set) of
dimension names. -/
theorem transformedDimension_name_preserved :
    (∀ d : TDim, d.name = d.original.name) ∧
    (∀ (reqs : List (Option String)) (dims : List OrigDim) (out : List TDim),
      buildRequiredSpace reqs dims = .ok out →
      out.map TDim.name = dims.map OrigDim.name) := by
  refine ⟨fun d => rfl, ?_⟩
  intro reqs dims
  induction dims with
  | nil =>
    intro out hout
    rw [buildRequiredSpace] at hout
    simp only [Except.ok.injEq] at hout
    rw [← hout]
    rfl
  | cons d rest ih =>
    intro out hout
    rw [buildRequiredSpace] at hout
    cases hts : requiredTransformers reqs d.type d.categories with
    | error e => rw [hts] at hout; exact absurd hout (by simp)
    | ok ts =>
      rw [hts] at hout
      cases hrest : buildRequiredSpace reqs rest with
      | error e => rw [hrest] at hout; exact absurd hout (by simp)
      | ok others =>
        rw [hrest] at hout
        simp only [Except.ok.injEq] at hout
        rw [← hout, List.map_cons, List.map_cons, ih others hrest]
        rfl

/-- Witness for C10: building a real-requirement space over a
categorical and a real dimension keeps both names. -/
theorem transformedDimension_name_preserved_witness :
    buildRequiredSpace [some "real"]
      [⟨"cat", "categorical", ["a", "b"], none, fun _ => true⟩,
       ⟨"x", "real", [], some (.r 0, .r 1), fun _ => true⟩] =
      .ok [⟨[.enum ["a", "b"], .oneHot 2],
            ⟨"cat", "categorical", ["a", "b"], none, fun _ => true⟩⟩,
           ⟨[], ⟨"x", "real", [], some (.r 0, .r 1), fun _ => true⟩⟩] ∧
    ([⟨[.enum ["a", "b"], .oneHot 2],
        ⟨"cat", "categorical", ["a", "b"], none, fun _ => true⟩⟩,
      ⟨[], ⟨"x", "real", [], some (.r 0, .r 1), fun _ => true⟩⟩] :
        List TDim).map TDim.name =
      ([⟨"cat", "categorical", ["a", "b"], none, fun _ => true⟩,
        ⟨"x", "real", [], some (.r 0, .r 1), fun _ => true⟩] :
          List OrigDim).map OrigDim.name :=
  ⟨rfl, transformedDimension_name_preserved.2 [some "real"] _ _ rfl⟩

theorem exceptBind_ok {ε α β : Type} (a : α) (f : α → Except ε β) :
    (Except.ok a : Except ε α).bind f = f a := rfl

/-- Soundness of the enumeration dictionary fold: a `some` result is an
index of `c`. -/
theorem enumIndex_sound (cats : List String) (c : String) :
    ∀ (n : ℕ) (acc : Option ℕ),
      (∀ j, acc = some j → cats.get? j = some c) →
      ∀ j, (List.range n).foldl
          (fun a i => if cats.get? i = some c then some i else a) acc = some j →
        cats.get? j = some c := by
  intro n
  induction n with
  | zero => intro acc hacc j hj; exact hacc j hj
  | succ n ih =>
    intro acc hacc j hj
    rw [List.range_succ, List.foldl_append] at hj
    simp only [List.foldl_cons, List.foldl_nil] at hj
    by_cases hc : cats.get? n = some c
    · rw [if_pos hc] at hj
      injection hj with hj
      rw [← hj]
      exact hc
    · rw [if_neg hc] at hj
      exact ih acc hacc j hj

/-- Completeness of the enumeration dictionary fold: if some index
below `n` hits `c`, the fold yields `some`. -/
theorem enumIndex_complete (cats : List String) (c : String) :
    ∀ (n : ℕ) (acc : Option ℕ) (j0 : ℕ), j0 < n → cats.get? j0 = some c →
      ∃ j, (List.range n).foldl
        (fun a i => if cats.get? i = some c then some i else a) acc = some j := by
  intro n
  induction n with
  | zero => intro acc j0 h _; exact absurd h (by omega)
  | succ n ih =>
    intro acc j0 hj0 hget
    rw [List.range_succ, List.foldl_append]
    simp only [List.foldl_cons, List.foldl_nil]
    by_cases hc : cats.get? n = some c
    · rw [if_pos hc]; exact ⟨n, rfl⟩
    · rw [if_neg hc]
      have hne : j0 ≠ n := fun he => hc (he ▸ hget)
      exact ih acc j0 (by omega) hget

/-- The `Enumerate` dictionary lookup of a declared category returns an
index of that category (the last one, when duplicated). -/
theorem enumIndex_spec (cats : List String) (c : String) (h : c ∈ cats) :
    ∃ i, enumIndex cats c = some i ∧ cats.get? i = some c := by
  obtain ⟨j0, hj0⟩ := List.mem_iff_get?.mp h
  obtain ⟨i, hi⟩ := enumIndex_complete cats c cats.length none j0
    (List.get?_eq_some.mp hj0).1 hj0
  exact ⟨i, hi, enumIndex_sound cats c cats.length none (by simp) i hi⟩

/-- `argmaxGo` keeps its current best when nothing beats it. -/
theorem argmaxGo_no_better :
    ∀ (l : List ℚ) (ci bi : ℕ) (bv : ℚ), (∀ x ∈ l, ¬ bv < x) →
      argmaxGo l ci bi bv = bi := by
  intro l
  induction l with
  | nil => intro ci bi bv _; rfl
  | cons x xs ih =>
    intro ci bi bv hno
    simp only [argmaxGo, if_neg (hno x (by simp))]
    exact ih (ci + 1) bi bv (fun y hy => hno y (by simp [hy]))

/-- Walking `k` zeros, then a one, then zeros, starting from best value
zero, lands on the index of the one. -/
theorem argmaxGo_zeros_then_one :
    ∀ (k ci bi m : ℕ),
      argmaxGo (List.replicate k (0 : ℚ) ++ 1 :: List.replicate m 0) ci bi 0 =
        ci + k := by
  intro k
  induction k with
  | zero =>
    intro ci bi m
    rw [List.replicate_zero, List.nil_append]
    simp only [argmaxGo, if_pos (by norm_num : (0 : ℚ) < 1)]
    rw [argmaxGo_no_better _ _ _ _
      (fun x hx => by rw [List.eq_of_mem_replicate hx]; norm_num)]
    omega
  | succ k ih =>
    intro ci bi m
    rw [List.replicate_succ, List.cons_append]
    simp only [argmaxGo, if_neg (by norm_num : ¬ (0 : ℚ) < 0)]
    rw [ih (ci + 1) bi m]
    omega

/-- `numpy.argmax` of a one-hot vector is the hot index. -/
theorem argmaxIdx_oneHotVec (n i : ℕ) (h : i < n) :
    argmaxIdx (oneHotVec n i) = some i := by
  have h1 : min i n = i := by omega
  have h2 : n - (i + 1) = n - i - 1 := by omega
  have hdec : oneHotVec n i =
      List.replicate i (0 : ℚ) ++ 1 :: List.replicate (n - i - 1) 0 := by
    rw [oneHotVec, List.set_eq_take_append_cons_drop,
      if_pos (by simpa using h), List.take_replicate, List.drop_replicate, h1, h2]
  cases i with
  | zero =>
    rw [hdec, List.replicate_zero, List.nil_append]
    simp only [argmaxIdx]
    rw [argmaxGo_no_better _ _ _ _
      (fun x hx => by rw [List.eq_of_mem_replicate hx]; norm_num)]
  | succ k =>
    rw [hdec, List.replicate_succ, List.cons_append]
    simp only [argmaxIdx]
    rw [argmaxGo_zeros_then_one]
    congr 1
    omega

theorem chainTransform_cons (t : Xf) (ts : List Xf) (w : TVal) :
    chainTransform (t :: ts) w = (Xf.apply true t w).bind (chainTransform ts) :=
  rfl

/-- A two-element `Compose` reverses outermost-first. -/
theorem chainReverse_pair (t1 t2 : Xf) (w : TVal) :
    chainReverse [t1, t2] w = (Xf.apply false t2 w).bind (Xf.apply false t1) := by
  simp only [chainReverse, List.reverse_cons, List.reverse_nil, List.nil_append,
    List.cons_append, List.foldlM_cons, List.foldlM_nil, bind_pure]
  rfl

/-- Scalar `OneHotEncode` round trip: transform then reverse restores
the category index, in all three width regimes. -/
theorem oneHot_scalar_roundtrip (n i : ℕ) (hi : i < n) :
    ∃ t, Xf.apply true (.oneHot n) (.i i) = .ok t ∧
      Xf.apply false (.oneHot n) t = .ok (.i i) := by
  have hz : (0 : ℤ) ≤ (i : ℤ) ∧ (i : ℤ) < (n : ℤ) :=
    ⟨Int.natCast_nonneg i, by exact_mod_cast hi⟩
  by_cases hn2 : n ≤ 2
  · refine ⟨.r ((i : ℤ) : ℚ), ?_, ?_⟩
    · simp only [Xf.apply]
      rw [if_pos hz, if_pos hn2]
    · interval_cases n
      · omega
      · interval_cases i
        simp only [Xf.apply]
        norm_num
      · interval_cases i
        · simp only [Xf.apply]
          norm_num
        · simp only [Xf.apply]
          norm_num
  · refine ⟨.v (oneHotVec n i), ?_, ?_⟩
    · simp only [Xf.apply]
      rw [if_pos hz, if_neg hn2, Int.toNat_natCast]
    · simp only [Xf.apply]
      rw [if_neg (by omega : ¬ n = 2), if_neg (by omega : ¬ n = 1)]
      have hlen : (oneHotVec n i).length = n := by
        simp [oneHotVec]
      rw [if_pos hlen, argmaxIdx_oneHotVec n i hi]

/-- C6: for every declared category list and every category in it,
`Enumerate` then `OneHotEncode` forward, then their reverses, restores
the original category — for 1, 2, and more than 2 categories alike. -/
theorem enumerate_oneHot_roundtrip (cats : List String) (c : String)
    (h : c ∈ cats) :
    (chainTransform [.enum cats, .oneHot cats.length] (.c c)).bind
      (chainReverse [.enum cats, .oneHot cats.length]) = .ok (.c c) := by
  obtain ⟨i, henum, hget⟩ := enumIndex_spec cats c h
  have hlt : i < cats.length := (List.get?_eq_some.mp hget).1
  have h1 : Xf.apply true (.enum cats) (.c c) = .ok (.i i) := by
    simp only [Xf.apply, henum]
  have hrev : Xf.apply false (.enum cats) (.i i) = .ok (.c c) := by
    have hpy : pyIndex cats (i : ℤ) = some c := by
      rw [pyIndex, if_pos (Int.natCast_nonneg i), Int.toNat_natCast]
      exact hget
    simp only [Xf.apply, hpy]
  obtain ⟨t, hf, hb⟩ := oneHot_scalar_roundtrip cats.length i hlt
  have htrans : chainTransform [.enum cats, .oneHot cats.length] (.c c) = .ok t := by
    rw [chainTransform_cons, h1, exceptBind_ok, chainTransform_cons, hf, exceptBind_ok]
    rfl
  rw [htrans, exceptBind_ok, chainReverse_pair, hb, exceptBind_ok]
  exact hrev

/-- Witness for C6 at one-, two-, and three-category lists. -/
theorem enumerate_oneHot_roundtrip_witness :
    (chainTransform [.enum ["a"], .oneHot 1] (.c "a")).bind
      (chainReverse [.enum ["a"], .oneHot 1]) = .ok (.c "a") ∧
    (chainTransform [.enum ["a", "b"], .oneHot 2] (.c "b")).bind
      (chainReverse [.enum ["a", "b"], .oneHot 2]) = .ok (.c "b") ∧
    (chainTransform [.enum ["a", "b", "c"], .oneHot 3] (.c "c")).bind
      (chainReverse [.enum ["a", "b", "c"], .oneHot 3]) = .ok (.c "c") :=
  ⟨enumerate_oneHot_roundtrip ["a"] "a" (by decide),
   enumerate_oneHot_roundtrip ["a", "b"] "b" (by decide),
   enumerate_oneHot_roundtrip ["a", "b", "c"] "c" (by decide)⟩
